import Mathlib

/-!
Verification of the neoghq repository/worktree lifecycle manager.

Strings are modelled as lists of characters (`Str`); Rust's string
primitives (`split`, `strip_prefix`, `strip_suffix`, `take_while`) are
embedded as executable Lean functions with the same semantics.  The
filesystem is modelled as a finite tree of named entries; the fallible
git/filesystem operations of the create/get commands are modelled as a
straight-line state machine whose fallible steps are driven by boolean
oracles, and which records the performed operations as an event trace.
-/

deriving instance DecidableEq for Except

namespace Neoghq

abbrev Str := List Char

/-- Rust `str::split(sep)` on a single-character separator: always returns a
non-empty list of (possibly empty) fields, e.g. splitting an empty string
yields one empty field. -/
def splitOnChar (sep : Char) : Str → List Str
  | [] => [[]]
  | c :: rest =>
    match splitOnChar sep rest with
    | [] => [[]]
    | s :: ss => if c == sep then [] :: s :: ss else (c :: s) :: ss

/-- Rust `str::strip_prefix`. -/
def stripPre (p s : Str) : Option Str :=
  if p <+: s then some (s.drop p.length) else none

/-- Rust `str::strip_suffix`. -/
def stripSuf (suf s : Str) : Option Str :=
  if suf <:+ s then some (s.take (s.length - suf.length)) else none

def dotGit : Str := ".git".toList

def schemeHttps : Str := "https://".toList

def sshMarker : Str := "git@".toList

def githubHost : Str := "github.com".toList

/-! ### Basic lemmas about the string primitives -/

theorem splitOnChar_ne_nil (sep : Char) (s : Str) : splitOnChar sep s ≠ [] := by
  induction s with
  | nil => simp [splitOnChar]
  | cons c rest ih =>
    simp only [splitOnChar]
    cases h : splitOnChar sep rest with
    | nil => exact absurd h ih
    | cons x xs =>
      by_cases hc : c == sep <;> simp [hc]

theorem splitOnChar_no_sep (sep : Char) (s : Str)
    (h : ∀ c ∈ s, (c == sep) = false) : splitOnChar sep s = [s] := by
  induction s with
  | nil => simp [splitOnChar]
  | cons c rest ih =>
    have hc : (c == sep) = false := h c (List.mem_cons_self c rest)
    have hrest := ih (fun x hx => h x (List.mem_cons_of_mem c hx))
    simp [splitOnChar, hrest, hc]

theorem splitOnChar_append (sep : Char) (a b : Str)
    (ha : ∀ c ∈ a, (c == sep) = false) :
    splitOnChar sep (a ++ sep :: b) = a :: splitOnChar sep b := by
  induction a with
  | nil =>
    simp only [List.nil_append, splitOnChar]
    cases h : splitOnChar sep b with
    | nil => exact absurd h (splitOnChar_ne_nil sep b)
    | cons x xs => simp
  | cons c rest ih =>
    have hc : (c == sep) = false := ha c (List.mem_cons_self c rest)
    have h2 := ih (fun x hx => ha x (List.mem_cons_of_mem c hx))
    simp only [List.cons_append, splitOnChar]
    rw [List.append_eq, h2]
    simp [hc]

theorem stripPre_append (p r : Str) : stripPre p (p ++ r) = some r := by
  simp [stripPre, List.prefix_append, List.drop_left]

theorem stripSuf_append (suf a : Str) : stripSuf suf (a ++ suf) = some a := by
  have hlen : (a ++ suf).length - suf.length = a.length := by
    simp [List.length_append]
  simp [stripSuf, List.suffix_append, hlen, List.take_left]

theorem stripSuf_none (suf s : Str) (h : ¬ suf <:+ s) : stripSuf suf s = none := by
  simp [stripSuf, h]

theorem suffix_append_cons_iff {α : Type} [DecidableEq α] (suf a b : List α) (x : α)
    (hx : x ∉ suf) : suf <:+ (a ++ x :: b) ↔ suf <:+ b := by
  induction a with
  | nil =>
    simp only [List.nil_append]
    rw [List.suffix_cons_iff]
    constructor
    · rintro (h | h)
      · exact absurd (h ▸ List.mem_cons_self x b) hx
      · exact h
    · exact Or.inr
  | cons c rest ih =>
    simp only [List.cons_append]
    rw [List.suffix_cons_iff]
    constructor
    · rintro (h | h)
      · exfalso
        apply hx
        rw [h]
        exact List.mem_cons_of_mem c (List.mem_append_right rest (List.mem_cons_self x b))
      · exact ih.mp h
    · intro h
      exact Or.inr (ih.mpr h)

theorem takeWhile_append_cons (p : Char → Bool) (a b : Str) (x : Char)
    (ha : ∀ c ∈ a, p c = true) (hx : p x = false) :
    (a ++ x :: b).takeWhile p = a := by
  induction a with
  | nil => simp [List.takeWhile, hx]
  | cons c rest ih =>
    have hc : p c = true := ha c (List.mem_cons_self c rest)
    have h2 := ih (fun y hy => ha y (List.mem_cons_of_mem c hy))
    simp [List.takeWhile, hc, h2]

theorem dropWhile_append_cons (p : Char → Bool) (a b : Str) (x : Char)
    (ha : ∀ c ∈ a, p c = true) (hx : p x = false) :
    (a ++ x :: b).dropWhile p = x :: b := by
  induction a with
  | nil => simp [List.dropWhile, hx]
  | cons c rest ih =>
    have hc : p c = true := ha c (List.mem_cons_self c rest)
    have h2 := ih (fun y hy => ha y (List.mem_cons_of_mem c hy))
    simp [List.dropWhile, hc, h2]

/-! ### Identity parser (src/commands/get.rs `parse_repository_url`,
src/commands/repo/create.rs `parse_repository_url` / `parse_repo_name`,
src/commands/repo/switch.rs `parse_repo_name`) -/

/-- Errors of the reference-string parsers.  In the source these are all
`anyhow` errors; the spec groups them as `InvalidFormat`. -/
inductive UrlErr where
  | invalidFormat
  | missingRepo
  | missingOwnerAndRepo
  | emptyPart
  deriving DecidableEq, Repr

/-- One step of the WHATWG path-segment normalization `url::Url::parse`
applies to the path of a special-scheme URL, over the '/'-separated segments:
a "." segment is dropped, a ".." segment pops the previous segment, and when
the final segment is "." or ".." an empty segment is appended in its place
(so a trailing dot segment leaves a trailing slash).  `acc` holds the
segments already emitted, most recent first. -/
def normSegsAux (acc : List Str) : List Str → List Str
  | [] => acc.reverse
  | [s] =>
    if s = ['.'] then (([] : Str) :: acc).reverse
    else if s = ['.', '.'] then (([] : Str) :: acc.tail).reverse
    else (s :: acc).reverse
  | s :: rest =>
    if s = ['.'] then normSegsAux acc rest
    else if s = ['.', '.'] then normSegsAux acc.tail rest
    else normSegsAux (s :: acc) rest

def normSegs (segs : List Str) : List Str := normSegsAux [] segs

/-- Join path segments back with '/' separators. -/
def joinSlash : List Str → Str
  | [] => []
  | [s] => s
  | s :: rest => s ++ '/' :: joinSlash rest

/-- Model of `url::Url::parse` restricted to the class of https URLs this
program is given: `https://host/path...` where the host is a non-empty DNS
name (lower-case letters, digits, dashes, dots) and the path segments use
unreserved characters (so no percent-encoding is involved; literal "." and
".." segments are normalized by `normSegs`, as the crate does at parse
time).  Returns `(host_str, path)`; like the url crate it rejects an empty
host and reports the path as "/" when none is present. -/
def urlParseHttps (s : Str) : Option (Str × Str) :=
  match stripPre schemeHttps s with
  | none => none
  | some rest =>
    let host := rest.takeWhile (fun c => c != '/')
    if host = [] then none
    else
      match rest.dropWhile (fun c => c != '/') with
      | [] => some (host, ['/'])
      | _ :: afterSlash =>
        some (host, '/' :: joinSlash (normSegs (splitOnChar '/' afterSlash)))

/-- `parse_repository_url` from src/commands/get.rs lines 577-620; the copy
in src/commands/repo/create.rs lines 45-88 is textually identical.  Strips a
trailing ".git", then handles `https://` URLs through the url crate and
`git@host:owner/repo` strings through plain splitting. -/
def parse_repository_url (url : Str) : Except UrlErr (Str × Str × Str) :=
  let u := (stripSuf dotGit url).getD url
  if schemeHttps <+: u then
    match urlParseHttps u with
    | none => .error .invalidFormat
    | some (host, path) =>
      let p := (stripPre ['/'] path).getD path
      let parts := splitOnChar '/' p
      match parts[0]?, parts[1]? with
      | some owner, some repo => .ok (host, owner, repo)
      | _, _ => .error .missingRepo
  else if sshMarker <+: u then
    let rest := u.drop sshMarker.length
    let parts := splitOnChar ':' rest
    match parts[0]?, parts[1]? with
    | some host, some ownerRepo =>
      let seg := splitOnChar '/' ownerRepo
      match seg[0]?, seg[1]? with
      | some owner, some repo => .ok (host, owner, repo)
      | _, _ => .error .missingRepo
    | _, _ => .error .missingOwnerAndRepo
  else .error .invalidFormat

/-- `parse_repo_name` from src/commands/repo/create.rs lines 19-43: the short
`owner/repo` form, defaulting the host to github.com. -/
def parse_repo_name (repo : Str) : Except UrlErr (Str × Str × Str) :=
  let parts := splitOnChar '/' repo
  if parts.length ≠ 2 then .error .invalidFormat
  else
    let owner := parts.getD 0 []
    let repoName := parts.getD 1 []
    if owner = [] ∨ repoName = [] then .error .emptyPart
    else .ok (githubHost, owner, repoName)

/-- `parse_repo_name` from src/commands/repo/switch.rs lines 17-36: same
checks, but returns only `(owner, repo)`. -/
def parse_repo_name_switch (repo : Str) : Except UrlErr (Str × Str) :=
  let parts := splitOnChar '/' repo
  if parts.length ≠ 2 then .error .invalidFormat
  else
    let owner := parts.getD 0 []
    let repoName := parts.getD 1 []
    if owner = [] ∨ repoName = [] then .error .emptyPart
    else .ok (owner, repoName)

/-- Characters allowed in the host part of a reference string: a DNS name as
the url crate returns it unchanged (lower-case letters, digits, dash, dot). -/
def hostChar (c : Char) : Bool := c.isLower || c.isDigit || c == '-' || c == '.'

/-- Characters of owner/name path segments on which the url crate performs no
percent-encoding or other normalization. -/
def segChar (c : Char) : Bool := c.isAlpha || c.isDigit || c == '-' || c == '_' || c == '.'

def hostOk (h : Str) : Prop := h ≠ [] ∧ ∀ c ∈ h, hostChar c = true

/-- A well-formed owner/name segment: non-empty, not a "." or ".." dot
segment (which the url crate would normalize away), and made of characters
the crate passes through unchanged. -/
def segOk (s : Str) : Prop :=
  s ≠ [] ∧ s ≠ ['.'] ∧ s ≠ ['.', '.'] ∧ ∀ c ∈ s, segChar c = true

instance (h : Str) : Decidable (hostOk h) := by unfold hostOk; infer_instance

instance (s : Str) : Decidable (segOk s) := by unfold segOk; infer_instance

theorem beq_false_of_pred {f : Char → Bool} {x c : Char} (hfx : f x = false)
    (h : f c = true) : (c == x) = false := by
  cases hb : c == x with
  | false => rfl
  | true =>
    have hcx : c = x := by simpa using hb
    rw [hcx, hfx] at h
    cases h

theorem hostChar_bne_slash {c : Char} (h : hostChar c = true) : (c != '/') = true := by
  have := beq_false_of_pred (f := hostChar) (x := '/') (by decide) h
  simp [bne, this]

theorem hostChar_beq_colon {c : Char} (h : hostChar c = true) : (c == ':') = false :=
  beq_false_of_pred (by decide) h

theorem segChar_beq_slash {c : Char} (h : segChar c = true) : (c == '/') = false :=
  beq_false_of_pred (by decide) h

theorem segChar_beq_colon {c : Char} (h : segChar c = true) : (c == ':') = false :=
  beq_false_of_pred (by decide) h

theorem takeWhile_all (p : Char → Bool) (a : Str) (ha : ∀ c ∈ a, p c = true) :
    a.takeWhile p = a := by
  induction a with
  | nil => rfl
  | cons c rest ih =>
    have hc : p c = true := ha c (List.mem_cons_self c rest)
    simp [List.takeWhile, hc, ih (fun y hy => ha y (List.mem_cons_of_mem c hy))]

theorem dropWhile_all (p : Char → Bool) (a : Str) (ha : ∀ c ∈ a, p c = true) :
    a.dropWhile p = [] := by
  induction a with
  | nil => rfl
  | cons c rest ih =>
    have hc : p c = true := ha c (List.mem_cons_self c rest)
    simp [List.dropWhile, hc, ih (fun y hy => ha y (List.mem_cons_of_mem c hy))]

theorem normSegsAux_pair (acc : List Str) (o n : Str)
    (ho1 : o ≠ ['.']) (ho2 : o ≠ ['.', '.'])
    (hn1 : n ≠ ['.']) (hn2 : n ≠ ['.', '.']) :
    normSegsAux acc [o, n] = acc.reverse ++ [o, n] := by
  simp [normSegsAux, ho1, ho2, hn1, hn2]

theorem normSegs_pair (o n : Str) (ho1 : o ≠ ['.']) (ho2 : o ≠ ['.', '.'])
    (hn1 : n ≠ ['.']) (hn2 : n ≠ ['.', '.']) :
    normSegs [o, n] = [o, n] := by
  rw [normSegs, normSegsAux_pair [] o n ho1 ho2 hn1 hn2]
  rfl

theorem normSegs_single (o : Str) (ho1 : o ≠ ['.']) (ho2 : o ≠ ['.', '.']) :
    normSegs [o] = [o] := by
  simp [normSegs, normSegsAux, ho1, ho2]

theorem urlParseHttps_twoSeg (h o n : Str) (hne : h ≠ [])
    (hh : ∀ c ∈ h, (c != '/') = true)
    (ho1 : o ≠ ['.']) (ho2 : o ≠ ['.', '.']) (hos : ∀ c ∈ o, (c == '/') = false)
    (hn1 : n ≠ ['.']) (hn2 : n ≠ ['.', '.']) (hns : ∀ c ∈ n, (c == '/') = false) :
    urlParseHttps (schemeHttps ++ (h ++ '/' :: (o ++ '/' :: n))) =
      some (h, '/' :: (o ++ '/' :: n)) := by
  unfold urlParseHttps
  rw [stripPre_append]
  simp only
  rw [takeWhile_append_cons _ h _ '/' hh (by decide),
    dropWhile_append_cons _ h _ '/' hh (by decide)]
  rw [if_neg hne]
  simp only
  rw [splitOnChar_append '/' o n hos, splitOnChar_no_sep '/' n hns,
    normSegs_pair o n ho1 ho2 hn1 hn2]
  rfl

theorem urlParseHttps_oneSeg (h o : Str) (hne : h ≠ [])
    (hh : ∀ c ∈ h, (c != '/') = true)
    (ho1 : o ≠ ['.']) (ho2 : o ≠ ['.', '.']) (hos : ∀ c ∈ o, (c == '/') = false) :
    urlParseHttps (schemeHttps ++ (h ++ '/' :: o)) = some (h, '/' :: o) := by
  unfold urlParseHttps
  rw [stripPre_append]
  simp only
  rw [takeWhile_append_cons _ h _ '/' hh (by decide),
    dropWhile_append_cons _ h _ '/' hh (by decide)]
  rw [if_neg hne]
  simp only
  rw [splitOnChar_no_sep '/' o hos, normSegs_single o ho1 ho2]
  rfl

theorem urlParseHttps_hostOnly (h : Str) (hne : h ≠ [])
    (hh : ∀ c ∈ h, (c != '/') = true) :
    urlParseHttps (schemeHttps ++ h) = some (h, ['/']) := by
  unfold urlParseHttps
  rw [stripPre_append]
  simp only
  rw [takeWhile_all _ h hh, dropWhile_all _ h hh]
  simp [hne]

/-- The canonical https reference shape `https://host/owner/name`. -/
def httpsUrl (h o n : Str) : Str := schemeHttps ++ (h ++ '/' :: (o ++ '/' :: n))

/-- The canonical SSH reference shape `git@host:owner/name`. -/
def sshUrl (h o n : Str) : Str := sshMarker ++ (h ++ ':' :: (o ++ '/' :: n))

theorem dotGit_not_suffix_httpsUrl (h o n : Str) (hgit : ¬ dotGit <:+ n) :
    ¬ dotGit <:+ httpsUrl h o n := by
  intro hsuf
  apply hgit
  have h1 : httpsUrl h o n = (schemeHttps ++ h) ++ '/' :: (o ++ '/' :: n) := by
    simp [httpsUrl, List.append_assoc]
  rw [h1] at hsuf
  rw [suffix_append_cons_iff dotGit _ _ '/' (by decide)] at hsuf
  rw [suffix_append_cons_iff dotGit _ _ '/' (by decide)] at hsuf
  exact hsuf

theorem dotGit_not_suffix_sshUrl (h o n : Str) (hgit : ¬ dotGit <:+ n) :
    ¬ dotGit <:+ sshUrl h o n := by
  intro hsuf
  apply hgit
  have h1 : sshUrl h o n = (sshMarker ++ h) ++ ':' :: (o ++ '/' :: n) := by
    simp [sshUrl, List.append_assoc]
  rw [h1] at hsuf
  rw [suffix_append_cons_iff dotGit _ _ ':' (by decide)] at hsuf
  rw [suffix_append_cons_iff dotGit _ _ '/' (by decide)] at hsuf
  exact hsuf

theorem parse_repository_url_https (h o n : Str) (hh : hostOk h) (ho : segOk o)
    (hn : segOk n) (hgit : ¬ dotGit <:+ n) :
    parse_repository_url (httpsUrl h o n) = .ok (h, o, n) := by
  obtain ⟨hne, hhc⟩ := hh
  obtain ⟨hone, hod1, hod2, hoc⟩ := ho
  obtain ⟨hnne, hnd1, hnd2, hnc⟩ := hn
  have hslash : ∀ c ∈ h, (c != '/') = true := fun c hc => hostChar_bne_slash (hhc c hc)
  have hpre : schemeHttps <+: httpsUrl h o n := List.prefix_append _ _
  simp only [parse_repository_url]
  rw [stripSuf_none _ _ (dotGit_not_suffix_httpsUrl h o n hgit)]
  simp only [Option.getD_none]
  rw [if_pos hpre]
  rw [show httpsUrl h o n = schemeHttps ++ (h ++ '/' :: (o ++ '/' :: n)) from rfl]
  rw [urlParseHttps_twoSeg h o n hne hslash hod1 hod2
    (fun c hc => segChar_beq_slash (hoc c hc)) hnd1 hnd2
    (fun c hc => segChar_beq_slash (hnc c hc))]
  simp only
  rw [show ('/' :: (o ++ '/' :: n) : Str) = ['/'] ++ (o ++ '/' :: n) from rfl]
  rw [stripPre_append]
  simp only [Option.getD_some]
  rw [splitOnChar_append '/' o n (fun c hc => segChar_beq_slash (hoc c hc))]
  rw [splitOnChar_no_sep '/' n (fun c hc => segChar_beq_slash (hnc c hc))]
  rfl

theorem parse_repository_url_ssh (h o n : Str) (hh : hostOk h) (ho : segOk o)
    (hn : segOk n) (hgit : ¬ dotGit <:+ n) :
    parse_repository_url (sshUrl h o n) = .ok (h, o, n) := by
  obtain ⟨hne, hhc⟩ := hh
  obtain ⟨hone, hod1, hod2, hoc⟩ := ho
  obtain ⟨hnne, hnd1, hnd2, hnc⟩ := hn
  have hnotHttps : ¬ schemeHttps <+: sshUrl h o n := by
    intro hp
    have : (sshUrl h o n).take 4 = schemeHttps.take 4 := by
      obtain ⟨t, ht⟩ := hp
      rw [← ht]
      rw [List.take_append_of_le_length (by decide)]
    simp [sshUrl, sshMarker, schemeHttps] at this
  have hpre : sshMarker <+: sshUrl h o n := List.prefix_append _ _
  simp only [parse_repository_url]
  rw [stripSuf_none _ _ (dotGit_not_suffix_sshUrl h o n hgit)]
  simp only [Option.getD_none]
  rw [if_neg hnotHttps, if_pos hpre]
  rw [show sshUrl h o n = sshMarker ++ (h ++ ':' :: (o ++ '/' :: n)) from rfl]
  rw [List.drop_left]
  rw [splitOnChar_append ':' h (o ++ '/' :: n) (fun c hc => hostChar_beq_colon (hhc c hc))]
  have hsplit : splitOnChar ':' (o ++ '/' :: n) =
      ((o ++ '/' :: n) : Str) :: ([] : List Str) := by
    apply splitOnChar_no_sep
    intro c hc
    rcases List.mem_append.mp hc with hc' | hc'
    · exact segChar_beq_colon (hoc c hc')
    · rcases List.mem_cons.mp hc' with rfl | hc''
      · decide
      · exact segChar_beq_colon (hnc c hc'')
  rw [hsplit]
  simp only [List.getElem?_cons_zero, List.getElem?_cons_succ]
  rw [splitOnChar_append '/' o n (fun c hc => segChar_beq_slash (hoc c hc))]
  rw [splitOnChar_no_sep '/' n (fun c hc => segChar_beq_slash (hnc c hc))]
  rfl

theorem parse_repository_url_https_gitSuffix (h o n : Str) (hh : hostOk h)
    (ho : segOk o) (hn : segOk n) (hgit : ¬ dotGit <:+ n) :
    parse_repository_url (httpsUrl h o n ++ dotGit) = .ok (h, o, n) := by
  have hstrip : stripSuf dotGit (httpsUrl h o n ++ dotGit) = some (httpsUrl h o n) :=
    stripSuf_append dotGit (httpsUrl h o n)
  have hmain := parse_repository_url_https h o n hh ho hn hgit
  simp only [parse_repository_url] at hmain ⊢
  rw [hstrip]
  rw [stripSuf_none _ _ (dotGit_not_suffix_httpsUrl h o n hgit)] at hmain
  simpa using hmain

theorem parse_repository_url_ssh_gitSuffix (h o n : Str) (hh : hostOk h)
    (ho : segOk o) (hn : segOk n) (hgit : ¬ dotGit <:+ n) :
    parse_repository_url (sshUrl h o n ++ dotGit) = .ok (h, o, n) := by
  have hstrip : stripSuf dotGit (sshUrl h o n ++ dotGit) = some (sshUrl h o n) :=
    stripSuf_append dotGit (sshUrl h o n)
  have hmain := parse_repository_url_ssh h o n hh ho hn hgit
  simp only [parse_repository_url] at hmain ⊢
  rw [hstrip]
  rw [stripSuf_none _ _ (dotGit_not_suffix_sshUrl h o n hgit)] at hmain
  simpa using hmain

theorem parse_repository_url_https_hostOnly (h : Str) (hh : hostOk h)
    (hgit : ¬ dotGit <:+ h) :
    parse_repository_url (schemeHttps ++ h) = .error .missingRepo := by
  obtain ⟨hne, hhc⟩ := hh
  have hsuf : ¬ dotGit <:+ (schemeHttps ++ h) := by
    intro hs
    apply hgit
    rw [show schemeHttps ++ h = "https:/".toList ++ '/' :: h from rfl] at hs
    rwa [suffix_append_cons_iff dotGit _ _ '/' (by decide)] at hs
  simp only [parse_repository_url]
  rw [stripSuf_none _ _ hsuf]
  simp only [Option.getD_none]
  rw [if_pos (List.prefix_append _ _)]
  rw [urlParseHttps_hostOnly h hne (fun c hc => hostChar_bne_slash (hhc c hc))]
  rfl

theorem parse_repository_url_https_oneSeg (h o : Str) (hh : hostOk h)
    (ho1 : o ≠ ['.']) (ho2 : o ≠ ['.', '.'])
    (ho : ∀ c ∈ o, segChar c = true) (hgit : ¬ dotGit <:+ o) :
    parse_repository_url (schemeHttps ++ (h ++ '/' :: o)) = .error .missingRepo := by
  obtain ⟨hne, hhc⟩ := hh
  have hsuf : ¬ dotGit <:+ (schemeHttps ++ (h ++ '/' :: o)) := by
    intro hs
    apply hgit
    rw [show schemeHttps ++ (h ++ '/' :: o) = (schemeHttps ++ h) ++ '/' :: o by
      simp [List.append_assoc]] at hs
    rwa [suffix_append_cons_iff dotGit _ _ '/' (by decide)] at hs
  simp only [parse_repository_url]
  rw [stripSuf_none _ _ hsuf]
  simp only [Option.getD_none]
  rw [if_pos (List.prefix_append _ _)]
  rw [urlParseHttps_oneSeg h o hne (fun c hc => hostChar_bne_slash (hhc c hc)) ho1 ho2
    (fun c hc => segChar_beq_slash (ho c hc))]
  simp only
  rw [show ('/' :: o : Str) = ['/'] ++ o from rfl, stripPre_append]
  simp only [Option.getD_some]
  rw [splitOnChar_no_sep '/' o (fun c hc => segChar_beq_slash (ho c hc))]
  rfl

theorem not_https_of_sshMarker (r : Str) : ¬ schemeHttps <+: sshMarker ++ r := by
  intro hp
  have : (sshMarker ++ r).take 4 = schemeHttps.take 4 := by
    obtain ⟨t, ht⟩ := hp
    rw [← ht]
    rw [List.take_append_of_le_length (by decide)]
  simp [sshMarker, schemeHttps] at this

theorem parse_repository_url_ssh_hostOnly (h : Str) (hh : hostOk h)
    (hgit : ¬ dotGit <:+ h) :
    parse_repository_url (sshMarker ++ h) = .error .missingOwnerAndRepo := by
  obtain ⟨hne, hhc⟩ := hh
  have hsuf : ¬ dotGit <:+ (sshMarker ++ h) := by
    intro hs
    apply hgit
    rw [show sshMarker ++ h = "git".toList ++ '@' :: h from rfl] at hs
    rwa [suffix_append_cons_iff dotGit _ _ '@' (by decide)] at hs
  simp only [parse_repository_url]
  rw [stripSuf_none _ _ hsuf]
  simp only [Option.getD_none]
  rw [if_neg (not_https_of_sshMarker h), if_pos (List.prefix_append _ _)]
  rw [List.drop_left]
  rw [splitOnChar_no_sep ':' h (fun c hc => hostChar_beq_colon (hhc c hc))]
  rfl

theorem parse_repository_url_ssh_oneSeg (h o : Str) (hh : hostOk h)
    (ho : ∀ c ∈ o, segChar c = true) (hgit : ¬ dotGit <:+ o) :
    parse_repository_url (sshMarker ++ (h ++ ':' :: o)) = .error .missingRepo := by
  obtain ⟨hne, hhc⟩ := hh
  have hsuf : ¬ dotGit <:+ (sshMarker ++ (h ++ ':' :: o)) := by
    intro hs
    apply hgit
    rw [show sshMarker ++ (h ++ ':' :: o) = (sshMarker ++ h) ++ ':' :: o by
      simp [List.append_assoc]] at hs
    rwa [suffix_append_cons_iff dotGit _ _ ':' (by decide)] at hs
  simp only [parse_repository_url]
  rw [stripSuf_none _ _ hsuf]
  simp only [Option.getD_none]
  rw [if_neg (not_https_of_sshMarker _), if_pos (List.prefix_append _ _)]
  rw [List.drop_left]
  rw [splitOnChar_append ':' h o (fun c hc => hostChar_beq_colon (hhc c hc))]
  rw [splitOnChar_no_sep ':' o (fun c hc => segChar_beq_colon (ho c hc))]
  simp only [List.getElem?_cons_zero, List.getElem?_cons_succ]
  rw [splitOnChar_no_sep '/' o (fun c hc => segChar_beq_slash (ho c hc))]
  rfl

example : parse_repository_url "https://github.com/user/repo.git".toList =
    .ok ("github.com".toList, "user".toList, "repo".toList) := by decide

example : parse_repository_url "git@github.com:user/repo.git".toList =
    .ok ("github.com".toList, "user".toList, "repo".toList) := by decide

example : parse_repository_url "https://github.com/single-part".toList =
    .error .missingRepo := by decide

example : parse_repository_url "invalid-url-format".toList = .error .invalidFormat := by
  decide

example : parse_repository_url "https://github.com/a/b/c".toList =
    .ok ("github.com".toList, "a".toList, "b".toList) := by decide

example : parse_repository_url "https://github.com/./repo".toList =
    .error .missingRepo := by decide

example : parse_repository_url "https://github.com/../repo".toList =
    .error .missingRepo := by decide

example : parse_repository_url "https://github.com/a/.".toList =
    .ok ("github.com".toList, "a".toList, []) := by decide

example : parse_repository_url "https://github.com/a/b/../c".toList =
    .ok ("github.com".toList, "a".toList, "c".toList) := by decide

example : parse_repo_name "user/repo".toList =
    .ok (githubHost, "user".toList, "repo".toList) := by decide

example : parse_repo_name "too/many/parts".toList = .error .invalidFormat := by decide

example : parse_repo_name "/missing-owner".toList = .error .emptyPart := by decide

/-! ### Config loading (src/config.rs `Config::load`, lines 13-27) -/

inductive ConfigErr where
  | homeNotSet
  deriving DecidableEq, Repr

def tildeSlash : Str := "~/".toList

def defaultRootStr : Str := "~/src/repos".toList

/-- Model of `root.replace("~", &home)`: Rust `str::replace` with the
one-character pattern `"~"` substitutes `home` for every occurrence of the
tilde character. -/
def rustReplaceTilde (home : Str) : Str → Str
  | [] => []
  | c :: rest =>
    if c == '~' then home ++ rustReplaceTilde home rest
    else c :: rustReplaceTilde home rest

/-- `Config::load` from src/config.rs: `neoghqRoot` is the `NEOGHQ_ROOT`
environment variable (`none` when unset), `home` is `HOME`.  Tilde expansion
happens only when the root starts with "~/"; it then replaces every "~" in
the root by the home directory. -/
def config_load (neoghqRoot : Option Str) (home : Option Str) : Except ConfigErr Str :=
  let root := neoghqRoot.getD defaultRootStr
  if tildeSlash <+: root then
    match home with
    | none => .error .homeNotSet
    | some h => .ok (rustReplaceTilde h root)
  else .ok root

theorem rustReplaceTilde_no_tilde (home root : Str) (hh : '~' ∉ home) :
    '~' ∉ rustReplaceTilde home root := by
  induction root with
  | nil => simp [rustReplaceTilde]
  | cons c rest ih =>
    simp only [rustReplaceTilde]
    by_cases hc : c == '~'
    · simp only [hc, if_pos]
      intro hmem
      rcases List.mem_append.mp hmem with hm | hm
      · exact hh hm
      · exact ih hm
    · simp only [hc]
      intro hmem
      rcases List.mem_cons.mp hmem with hm | hm
      · subst hm
        simp at hc
      · exact ih hm

/-! ### Filesystem model

A directory tree is a finite tree of named entries; `read_dir` enumerates the
entries of a directory in list order.  Paths are lists of components. -/

inductive FsTree where
  | file : FsTree
  | dir : List (Str × FsTree) → FsTree

abbrev Entry := Str × FsTree

abbrev Entries := List Entry

def entriesOf : FsTree → Entries
  | .file => []
  | .dir es => es

def isDirB : FsTree → Bool
  | .file => false
  | .dir _ => true

/-- Errors of the filesystem walkers: `panicked` models a Rust panic from
`file_name().unwrap()`, `notADirectory` an I/O error from `read_dir`, and
`worktreeNotFound` the explicit failure of `find_default_worktree`. -/
inductive FsErr where
  | panicked
  | notADirectory
  | worktreeNotFound
  deriving DecidableEq, Repr

/-- Model of Rust's `Path::file_name` on a path given as components: the last
component when it is a normal name; `none` when the path is empty or the last
component is empty or a `.`/`..` marker (the cases in which Rust either
returns `None` or would have to normalize the path).  Directory entries
produced by `read_dir` always have normal names. -/
def fileName (p : List Str) : Option Str :=
  match p.getLast? with
  | none => none
  | some n => if n = [] ∨ n = ['.'] ∨ n = ['.', '.'] then none else some n

/-- A directory-entry name as `read_dir` produces it: non-empty and not a
`.`/`..` marker. -/
def validName (n : Str) : Bool := decide (n ≠ [] ∧ n ≠ ['.'] ∧ n ≠ ['.', '.'])

theorem fileName_concat (pre : List Str) (n : Str) (hv : validName n = true) :
    fileName (pre ++ [n]) = some n := by
  unfold validName at hv
  rw [decide_eq_true_iff] at hv
  obtain ⟨h1, h2, h3⟩ := hv
  unfold fileName
  rw [List.getLast?_concat]
  simp [h1, h2, h3]

/-! ### Worktree listing (src/commands/list.rs lines 14-76; the copy in
src/commands/repo/list.rs lines 72-134 is identical) -/

/-- `list_repo_worktrees`: prints every immediate subdirectory of a
repository directory whose `file_name().unwrap()` is not ".git". -/
def list_repo_worktrees (pre : List Str) : Entries → Except FsErr (List (List Str))
  | [] => .ok []
  | e :: rest =>
    match e.2 with
    | .file => list_repo_worktrees pre rest
    | .dir _ =>
      match fileName (pre ++ [e.1]) with
      | none => .error .panicked
      | some n =>
        match list_repo_worktrees pre rest with
        | .error er => .error er
        | .ok l => .ok (if n = dotGit then l else (pre ++ [e.1]) :: l)

/-- `list_user_worktrees`: recurses into every subdirectory (including one
named ".git") of an owner directory. -/
def list_user_worktrees (pre : List Str) : Entries → Except FsErr (List (List Str))
  | [] => .ok []
  | e :: rest =>
    match e.2 with
    | .file => list_user_worktrees pre rest
    | .dir ces =>
      match list_repo_worktrees (pre ++ [e.1]) ces with
      | .error er => .error er
      | .ok l =>
        match list_user_worktrees pre rest with
        | .error er => .error er
        | .ok l2 => .ok (l ++ l2)

/-- `list_host_worktrees`: recurses into every subdirectory of a host
directory. -/
def list_host_worktrees (pre : List Str) : Entries → Except FsErr (List (List Str))
  | [] => .ok []
  | e :: rest =>
    match e.2 with
    | .file => list_host_worktrees pre rest
    | .dir ces =>
      match list_user_worktrees (pre ++ [e.1]) ces with
      | .error er => .error er
      | .ok l =>
        match list_host_worktrees pre rest with
        | .error er => .error er
        | .ok l2 => .ok (l ++ l2)

/-- `list_worktrees`: a missing root yields an empty listing; otherwise the
walker descends host/owner/repo levels and prints worktree directories.
Paths are reported relative to the root. -/
def list_worktrees (root : Option FsTree) : Except FsErr (List (List Str)) :=
  match root with
  | none => .ok []
  | some .file => .error .notADirectory
  | some (.dir es) => listRootWorktrees es

where listRootWorktrees : Entries → Except FsErr (List (List Str))
  | [] => .ok []
  | e :: rest =>
    match e.2 with
    | .file => listRootWorktrees rest
    | .dir ces =>
      match list_host_worktrees [e.1] ces with
      | .error er => .error er
      | .ok l =>
        match listRootWorktrees rest with
        | .error er => .error er
        | .ok l2 => .ok (l ++ l2)

/-! ### Repository listing (src/commands/repo/list.rs lines 22-70) -/

/-- `list_user_repositories`: prints every immediate subdirectory of an owner
directory. -/
def list_user_repositories (pre : List Str) : Entries → List (List Str)
  | [] => []
  | e :: rest =>
    match e.2 with
    | .file => list_user_repositories pre rest
    | .dir _ => (pre ++ [e.1]) :: list_user_repositories pre rest

/-- `list_host_repositories`: recurses into every subdirectory of a host
directory. -/
def list_host_repositories (pre : List Str) : Entries → List (List Str)
  | [] => []
  | e :: rest =>
    match e.2 with
    | .file => list_host_repositories pre rest
    | .dir ces => list_user_repositories (pre ++ [e.1]) ces ++ list_host_repositories pre rest

/-- `list_repositories`: a missing root yields an empty listing. -/
def list_repositories (root : Option FsTree) : Except FsErr (List (List Str)) :=
  match root with
  | none => .ok []
  | some .file => .error .notADirectory
  | some (.dir es) => .ok (listRootRepositories es)

where listRootRepositories : Entries → List (List Str)
  | [] => []
  | e :: rest =>
    match e.2 with
    | .file => listRootRepositories rest
    | .dir ces => list_host_repositories [e.1] ces ++ listRootRepositories rest

/-! ### Default worktree lookup (src/commands/repo/switch.rs lines 66-94) -/

def mainName : Str := "main".toList

def masterName : Str := "master".toList

/-- `repo_path.join(name).exists() && .is_dir()` for a directory whose
entries are `es`. -/
def existsDir (es : Entries) (n : Str) : Bool :=
  match es.find? (fun e => e.1 == n) with
  | some e => isDirB e.2
  | none => false

/-- The final loop of `find_default_worktree`: the first entry that is a
directory and whose `file_name().unwrap()` is not ".git". -/
def firstWorktree (pre : List Str) : Entries → Except FsErr (List Str)
  | [] => .error .worktreeNotFound
  | e :: rest =>
    match e.2 with
    | .file => firstWorktree pre rest
    | .dir _ =>
      match fileName (pre ++ [e.1]) with
      | none => .error .panicked
      | some n => if n = dotGit then firstWorktree pre rest else .ok (pre ++ [e.1])

/-- `find_default_worktree`: prefer a directory named "main", then "master",
then the first directory entry that is not ".git". -/
def find_default_worktree (pre : List Str) (es : Entries) : Except FsErr (List Str) :=
  if existsDir es mainName then .ok (pre ++ [mainName])
  else if existsDir es masterName then .ok (pre ++ [masterName])
  else firstWorktree pre es

/-! ### Specification-level description of the worktree walker -/

/-- The worktree paths below one repository directory, described
declaratively: subdirectories not named ".git". -/
def pureRepo (pre : List Str) (es : Entries) : List (List Str) :=
  (es.filter fun e => isDirB e.2 && decide (e.1 ≠ dotGit)).map fun e => pre ++ [e.1]

def pureUser (pre : List Str) (es : Entries) : List (List Str) :=
  (es.filter fun e => isDirB e.2).flatMap fun e => pureRepo (pre ++ [e.1]) (entriesOf e.2)

def pureHost (pre : List Str) (es : Entries) : List (List Str) :=
  (es.filter fun e => isDirB e.2).flatMap fun e => pureUser (pre ++ [e.1]) (entriesOf e.2)

def pureRoot (es : Entries) : List (List Str) :=
  (es.filter fun e => isDirB e.2).flatMap fun e => pureHost [e.1] (entriesOf e.2)

/-- Well-formedness of the entry names `read_dir` can produce, at the depth
the worktree walker inspects them (only the repository level calls
`file_name`). -/
def wfRepoEntries (es : Entries) : Bool := es.all fun e => validName e.1

def wfUserEntries (es : Entries) : Bool := es.all fun e => wfRepoEntries (entriesOf e.2)

def wfHostEntries (es : Entries) : Bool := es.all fun e => wfUserEntries (entriesOf e.2)

def wfRootEntries (es : Entries) : Bool := es.all fun e => wfHostEntries (entriesOf e.2)

theorem list_repo_worktrees_eq (pre : List Str) (es : Entries)
    (h : wfRepoEntries es = true) :
    list_repo_worktrees pre es = .ok (pureRepo pre es) := by
  induction es with
  | nil => rfl
  | cons e rest ih =>
    rw [wfRepoEntries, List.all_cons, Bool.and_eq_true] at h
    obtain ⟨hv, hrest⟩ := h
    have ih2 := ih hrest
    obtain ⟨nm, t⟩ := e
    cases t with
    | file => simpa [list_repo_worktrees, pureRepo, isDirB] using ih2
    | dir ces =>
      simp only [list_repo_worktrees, fileName_concat pre nm hv, ih2]
      by_cases hnm : nm = dotGit
      · simp [hnm, pureRepo, isDirB]
      · simp [hnm, pureRepo, isDirB]

theorem list_user_worktrees_eq (pre : List Str) (es : Entries)
    (h : wfUserEntries es = true) :
    list_user_worktrees pre es = .ok (pureUser pre es) := by
  induction es with
  | nil => rfl
  | cons e rest ih =>
    rw [wfUserEntries, List.all_cons, Bool.and_eq_true] at h
    obtain ⟨hv, hrest⟩ := h
    have ih2 := ih hrest
    obtain ⟨nm, t⟩ := e
    cases t with
    | file => simpa [list_user_worktrees, pureUser, isDirB] using ih2
    | dir ces =>
      rw [entriesOf] at hv
      simp only [list_user_worktrees, list_repo_worktrees_eq (pre ++ [nm]) ces hv, ih2]
      simp [pureUser, isDirB, entriesOf]

theorem list_host_worktrees_eq (pre : List Str) (es : Entries)
    (h : wfHostEntries es = true) :
    list_host_worktrees pre es = .ok (pureHost pre es) := by
  induction es with
  | nil => rfl
  | cons e rest ih =>
    rw [wfHostEntries, List.all_cons, Bool.and_eq_true] at h
    obtain ⟨hv, hrest⟩ := h
    have ih2 := ih hrest
    obtain ⟨nm, t⟩ := e
    cases t with
    | file => simpa [list_host_worktrees, pureHost, isDirB] using ih2
    | dir ces =>
      rw [entriesOf] at hv
      simp only [list_host_worktrees, list_user_worktrees_eq (pre ++ [nm]) ces hv, ih2]
      simp [pureHost, isDirB, entriesOf]

theorem list_worktrees_eq (es : Entries) (h : wfRootEntries es = true) :
    list_worktrees (some (.dir es)) = .ok (pureRoot es) := by
  rw [show list_worktrees (some (.dir es)) = list_worktrees.listRootWorktrees es from rfl]
  induction es with
  | nil => rfl
  | cons e rest ih =>
    rw [wfRootEntries, List.all_cons, Bool.and_eq_true] at h
    obtain ⟨hv, hrest⟩ := h
    have ih2 := ih hrest
    obtain ⟨nm, t⟩ := e
    cases t with
    | file => simpa [list_worktrees.listRootWorktrees, pureRoot, isDirB] using ih2
    | dir ces =>
      rw [entriesOf] at hv
      simp only [list_worktrees.listRootWorktrees, list_host_worktrees_eq [nm] ces hv, ih2]
      simp [pureRoot, isDirB, entriesOf]

theorem mem_pureRepo (pre : List Str) (es : Entries) (q : List Str) :
    q ∈ pureRepo pre es ↔
      ∃ e ∈ es, isDirB e.2 = true ∧ e.1 ≠ dotGit ∧ q = pre ++ [e.1] := by
  simp only [pureRepo, List.mem_map, List.mem_filter, Bool.and_eq_true,
    decide_eq_true_iff]
  constructor
  · rintro ⟨e, ⟨hm, hd, hg⟩, hq⟩
    exact ⟨e, hm, hd, hg, hq.symm⟩
  · rintro ⟨e, hm, hd, hg, hq⟩
    exact ⟨e, ⟨hm, hd, hg⟩, hq.symm⟩

theorem mem_pureUser (pre : List Str) (es : Entries) (q : List Str) :
    q ∈ pureUser pre es ↔
      ∃ e ∈ es, isDirB e.2 = true ∧ q ∈ pureRepo (pre ++ [e.1]) (entriesOf e.2) := by
  simp only [pureUser, List.mem_flatMap, List.mem_filter]
  constructor
  · rintro ⟨e, ⟨hm, hd⟩, hq⟩
    exact ⟨e, hm, hd, hq⟩
  · rintro ⟨e, hm, hd, hq⟩
    exact ⟨e, ⟨hm, hd⟩, hq⟩

theorem mem_pureHost (pre : List Str) (es : Entries) (q : List Str) :
    q ∈ pureHost pre es ↔
      ∃ e ∈ es, isDirB e.2 = true ∧ q ∈ pureUser (pre ++ [e.1]) (entriesOf e.2) := by
  simp only [pureHost, List.mem_flatMap, List.mem_filter]
  constructor
  · rintro ⟨e, ⟨hm, hd⟩, hq⟩
    exact ⟨e, hm, hd, hq⟩
  · rintro ⟨e, hm, hd, hq⟩
    exact ⟨e, ⟨hm, hd⟩, hq⟩

theorem existsDir_of_mem (es : Entries) (n : Str) (t : FsTree)
    (hnd : (es.map Prod.fst).Nodup) (hm : (n, t) ∈ es) (hd : isDirB t = true) :
    existsDir es n = true := by
  induction es with
  | nil => cases hm
  | cons e rest ih =>
    rw [List.map_cons, List.nodup_cons] at hnd
    obtain ⟨hnot, hnd2⟩ := hnd
    rcases List.mem_cons.mp hm with heq | hm2
    · subst heq
      rw [existsDir, List.find?_cons_of_pos _ (by simp)]
      exact hd
    · have hne : (e.1 == n) = false := by
        cases hb : e.1 == n with
        | false => rfl
        | true =>
          exfalso
          apply hnot
          have : e.1 = n := by simpa using hb
          rw [this]
          exact List.mem_map_of_mem Prod.fst hm2
      rw [existsDir, List.find?_cons_of_neg _ (by simp [hne])]
      exact ih hnd2 hm2

theorem mem_of_existsDir (es : Entries) (n : Str) (h : existsDir es n = true) :
    ∃ t, (n, t) ∈ es ∧ isDirB t = true := by
  rw [existsDir] at h
  cases hf : es.find? (fun e => e.1 == n) with
  | none => rw [hf] at h; cases h
  | some e =>
    rw [hf] at h
    have hm := List.mem_of_find?_eq_some hf
    have hp := List.find?_some hf
    have hn : e.1 = n := by simpa using hp
    refine ⟨e.2, ?_, h⟩
    rw [← hn]
    exact hm

theorem firstWorktree_err_of_unqualified (pre : List Str) (es : Entries)
    (h : ∀ e ∈ es, isDirB e.2 = false ∨ e.1 = dotGit) :
    firstWorktree pre es = .error .worktreeNotFound := by
  induction es with
  | nil => rfl
  | cons e rest ih =>
    have ih2 := ih (fun x hx => h x (List.mem_cons_of_mem e hx))
    obtain ⟨nm, t⟩ := e
    cases t with
    | file => simpa [firstWorktree] using ih2
    | dir ces =>
      rcases h (nm, .dir ces) (List.mem_cons_self _ _) with hd | hg
      · cases hd
      · simp only at hg
        rw [firstWorktree, hg, fileName_concat pre dotGit (by decide)]
        simpa [firstWorktree] using ih2

theorem firstWorktree_no_panic (pre : List Str) (es : Entries)
    (h : wfRepoEntries es = true) :
    firstWorktree pre es ≠ .error .panicked := by
  induction es with
  | nil => simp [firstWorktree]
  | cons e rest ih =>
    rw [wfRepoEntries, List.all_cons, Bool.and_eq_true] at h
    obtain ⟨hv, hrest⟩ := h
    have ih2 := ih hrest
    obtain ⟨nm, t⟩ := e
    cases t with
    | file => simpa [firstWorktree] using ih2
    | dir ces =>
      rw [firstWorktree, fileName_concat pre nm hv]
      by_cases hnm : nm = dotGit
      · simpa [hnm, firstWorktree] using ih2
      · simp [hnm, firstWorktree]

theorem find_default_worktree_no_panic (pre : List Str) (es : Entries)
    (h : wfRepoEntries es = true) :
    find_default_worktree pre es ≠ .error .panicked := by
  rw [find_default_worktree]
  by_cases h1 : existsDir es mainName = true
  · simp [h1]
  · by_cases h2 : existsDir es masterName = true
    · simp [h1, h2]
    · simp only [h1, h2, Bool.false_eq_true, if_false]
      exact firstWorktree_no_panic pre es h

theorem mem_pureRoot (es : Entries) (q : List Str) :
    q ∈ pureRoot es ↔
      ∃ e ∈ es, isDirB e.2 = true ∧ q ∈ pureHost [e.1] (entriesOf e.2) := by
  simp only [pureRoot, List.mem_flatMap, List.mem_filter]
  constructor
  · rintro ⟨e, ⟨hm, hd⟩, hq⟩
    exact ⟨e, hm, hd, hq⟩
  · rintro ⟨e, hm, hd, hq⟩
    exact ⟨e, ⟨hm, hd⟩, hq⟩

/-! ### Create/get command flows (src/commands/repo/create.rs
`execute_create_command` lines 149-253, src/commands/get.rs
`execute_get_command` lines 672-706)

The fallible git/filesystem primitives are modelled by boolean oracles (one
per call site) saying whether that call would succeed; the on-disk state is
the pair of existence flags for the bare repository and the worktree
directory, and every mutating operation performed is recorded in an event
trace.  The model is single-threaded, like the program. -/

/-- Mutating operations the commands perform. -/
inductive Ev where
  | createBareEv
  | cloneBareEv
  | createWtEv
  | removeBareEv
  | removeWtEv
  deriving DecidableEq, Repr

inductive CreateErr where
  | createBareFailed
  | removeBareFailed
  | removeWtFailed
  | recreateBareFailed
  | retryWtFailed
  | wtFailedNoBare
  deriving DecidableEq, Repr

inductive GetErr where
  | cloneFailed
  | wtFailed
  deriving DecidableEq, Repr

/-- Result of a command run: outcome, trace of performed operations, and the
final (bare exists, worktree exists) state. -/
structure RunResult (ε : Type) where
  res : Except ε Unit
  trace : List Ev
  bareEnd : Bool
  wtEnd : Bool
  deriving DecidableEq, Repr

/-- `execute_create_command`, after URL parsing and path resolution.
`bare0`/`wt0`: whether the bare repository / worktree directory exist before
the run.  `cbOk`: outcome of the initial `create_bare_repository` (when
called); `wt1Ok`: outcome of the first `create_worktree`; `wtAfterFail`:
whether the worktree directory exists after a failed first attempt;
`rmBareOk`, `rmWtOk`, `rcOk`, `wt2Ok`: outcomes of the recovery steps
(remove bare, remove worktree dir, recreate bare, retry worktree). -/
def execute_create_command (bare0 wt0 cbOk wt1Ok wtAfterFail rmBareOk rmWtOk rcOk wt2Ok :
    Bool) : RunResult CreateErr :=
  -- ensure the bare repository
  if !bare0 && !cbOk then ⟨.error .createBareFailed, [.createBareEv], false, wt0⟩
  else
    let tr1 : List Ev := if bare0 then [] else [.createBareEv]
    -- ensure the worktree
    if wt0 then ⟨.ok (), tr1, true, true⟩
    else
      let tr2 := tr1 ++ [.createWtEv]
      if wt1Ok then ⟨.ok (), tr2, true, true⟩
      else
        -- first attempt failed; the bare path exists here (ensured above), so
        -- the source's `if bare_repo_path.exists()` recovery branch is taken
        let tr3 := tr2 ++ [.removeBareEv]
        if !rmBareOk then ⟨.error .removeBareFailed, tr3, true, wtAfterFail⟩
        else if wtAfterFail && !rmWtOk then
          ⟨.error .removeWtFailed, tr3 ++ [.removeWtEv], false, true⟩
        else
          let tr4 := tr3 ++ (if wtAfterFail then [.removeWtEv] else []) ++ [.createBareEv]
          if !rcOk then ⟨.error .recreateBareFailed, tr4, false, false⟩
          else
            let tr5 := tr4 ++ [.createWtEv]
            if wt2Ok then ⟨.ok (), tr5, true, true⟩
            else ⟨.error .retryWtFailed, tr5, true, false⟩

/-- `execute_get_command`, after URL parsing and path resolution: clone the
bare repository when the bare path is absent, create the worktree when the
worktree path is absent; a worktree-creation failure propagates immediately
(there is no recovery branch in this function). -/
def execute_get_command (bare0 wt0 cloneOk wtOk : Bool) : RunResult GetErr :=
  if !bare0 && !cloneOk then ⟨.error .cloneFailed, [.cloneBareEv], false, wt0⟩
  else
    let tr1 : List Ev := if bare0 then [] else [.cloneBareEv]
    if wt0 then ⟨.ok (), tr1, true, true⟩
    else if wtOk then ⟨.ok (), tr1 ++ [.createWtEv], true, true⟩
    else ⟨.error .wtFailed, tr1 ++ [.createWtEv], true, false⟩

/-! ## Claim theorems -/

/-- C7: for every root path that does not exist, or exists but is an empty
directory, both listing operations succeed and produce an empty sequence
rather than an error. -/
theorem C7_empty_root_listing :
    list_worktrees none = .ok [] ∧
    list_worktrees (some (.dir [])) = .ok [] ∧
    list_repositories none = .ok [] ∧
    list_repositories (some (.dir [])) = .ok [] :=
  ⟨rfl, rfl, rfl, rfl⟩

/-- C9: `Config::load` expands the home directory only when the configured
root starts with "~/"; any other root (including "~" alone or a tilde in a
non-leading position) is returned unchanged and never produces the
HOME-not-set error; when the root does start with "~/", every tilde in it —
not only the leading one — is replaced by the home path (witnessed both by
the substitution function leaving no tilde behind and by a concrete root with
an interior tilde). -/
theorem C9_config_load_tilde :
    (∀ (root : Str) (home : Option Str), ¬ tildeSlash <+: root →
      config_load (some root) home = .ok root) ∧
    (∀ root home : Str, tildeSlash <+: root →
      config_load (some root) (some home) = .ok (rustReplaceTilde home root)) ∧
    (∀ root home : Str, '~' ∉ home → '~' ∉ rustReplaceTilde home root) ∧
    (∀ root : Str, tildeSlash <+: root →
      config_load (some root) none = .error .homeNotSet) ∧
    config_load (some "~".toList) none = .ok "~".toList ∧
    config_load (some "/a/~b".toList) none = .ok "/a/~b".toList ∧
    config_load (some "~/a~b".toList) (some "/h".toList) = .ok "/h/a/hb".toList := by
  refine ⟨?_, ?_, ?_, ?_, by decide, by decide, by decide⟩
  · intro root home h
    simp [config_load, h]
  · intro root home h
    simp [config_load, h]
  · intro root home h
    exact rustReplaceTilde_no_tilde home root h
  · intro root h
    simp [config_load, h]

/-- C9 witness: a root without the "~/" prefix is returned unchanged even
with no home directory available. -/
theorem C9_witness : config_load (some "/abs/path".toList) none = .ok "/abs/path".toList :=
  C9_config_load_tilde.1 "/abs/path".toList none (by decide)

/-- C6: a short `owner/name` reference parses to the default host github.com
with the two segments, for repo/create.rs (triple result) and repo/switch.rs
(pair result) alike; the inputs "owner/name/extra", "/name" and "owner/" each
fail (in the source all these failures carry the "Invalid repository format"
message; the model distinguishes the wrong-segment-count and the
empty-segment variants of it). -/
theorem C6_parse_repo_name_short :
    (∀ o n : Str, o ≠ [] → n ≠ [] →
      (∀ c ∈ o, (c == '/') = false) → (∀ c ∈ n, (c == '/') = false) →
      parse_repo_name (o ++ '/' :: n) = .ok (githubHost, o, n) ∧
      parse_repo_name_switch (o ++ '/' :: n) = .ok (o, n)) ∧
    parse_repo_name "owner/name/extra".toList = .error .invalidFormat ∧
    parse_repo_name "/name".toList = .error .emptyPart ∧
    parse_repo_name "owner/".toList = .error .emptyPart ∧
    parse_repo_name_switch "owner/name/extra".toList = .error .invalidFormat ∧
    parse_repo_name_switch "/name".toList = .error .emptyPart ∧
    parse_repo_name_switch "owner/".toList = .error .emptyPart := by
  refine ⟨?_, by decide, by decide, by decide, by decide, by decide, by decide⟩
  intro o n ho hn hoc hnc
  have hsplit : splitOnChar '/' (o ++ '/' :: n) = [o, n] := by
    rw [splitOnChar_append '/' o n hoc, splitOnChar_no_sep '/' n hnc]
  constructor
  · simp [parse_repo_name, hsplit, ho, hn]
  · simp [parse_repo_name_switch, hsplit, ho, hn]

/-- C6 witness: a concrete short reference. -/
theorem C6_witness :
    parse_repo_name ("user".toList ++ '/' :: "repo".toList) =
      .ok (githubHost, "user".toList, "repo".toList) :=
  (C6_parse_repo_name_short.1 "user".toList "repo".toList (by decide) (by decide)
    (by decide) (by decide)).1

/-- C8: after stripping a trailing ".git", a reference string can only parse
successfully when it starts with "https://" or "git@"; in particular
`http://`, `ssh://` and `git://` URLs all fail with the invalid-format
error. -/
theorem C8_scheme_gate :
    (∀ url : Str, (parse_repository_url url).isOk = true →
      schemeHttps <+: ((stripSuf dotGit url).getD url) ∨
        sshMarker <+: ((stripSuf dotGit url).getD url)) ∧
    parse_repository_url "http://example.com/a/b".toList = .error .invalidFormat ∧
    parse_repository_url "ssh://example.com/a/b".toList = .error .invalidFormat ∧
    parse_repository_url "git://example.com/a/b".toList = .error .invalidFormat := by
  refine ⟨?_, by decide, by decide, by decide⟩
  intro url h
  by_contra hne
  push_neg at hne
  obtain ⟨h1, h2⟩ := hne
  simp only [parse_repository_url, if_neg h1, if_neg h2] at h
  cases h

/-- C8 witness: an https reference is accepted, and indeed carries the
https:// prefix after ".git" stripping. -/
theorem C8_witness :
    schemeHttps <+: ((stripSuf dotGit "https://github.com/a/b".toList).getD
      "https://github.com/a/b".toList) ∨
    sshMarker <+: ((stripSuf dotGit "https://github.com/a/b".toList).getD
      "https://github.com/a/b".toList) :=
  C8_scheme_gate.1 "https://github.com/a/b".toList (by decide)

/-- C2 counterexample: the claim quantifies over every worktree-creation
failure with the bare path present, citing both `execute_create_command` and
`execute_get_command`; but in `execute_get_command` a failing
`create_worktree` with the bare repository present is surfaced immediately —
zero delete-recreate-retry cycles are performed (the trace holds no removal
event), not exactly one. -/
theorem C2_counterexample :
    execute_get_command true false true false =
      ⟨.error .wtFailed, [.createWtEv], true, false⟩ ∧
    (execute_get_command true false true false).trace.count .removeBareEv = 0 := by
  decide

/-- C2 (amended): in `execute_create_command`, whenever the first worktree
creation attempt fails (the bare path is present then, having been ensured),
exactly one recovery cycle runs — one `remove_dir_all` of the bare path, the
worktree directory removed when present, one recreate, one retry — and a
failing retry is surfaced as a fatal error; no run of the command ever
performs two removal cycles or more than two worktree-creation attempts.  In
`execute_get_command` no recovery cycle exists at all: a worktree-creation
failure with the bare path present is immediately fatal. -/
theorem C2_one_recovery_cycle :
    (∀ bare0 wt0 cbOk wt1Ok wtAfterFail rmBareOk rmWtOk rcOk wt2Ok : Bool,
      (execute_create_command bare0 wt0 cbOk wt1Ok wtAfterFail rmBareOk rmWtOk rcOk
          wt2Ok).trace.count .removeBareEv ≤ 1 ∧
      (execute_create_command bare0 wt0 cbOk wt1Ok wtAfterFail rmBareOk rmWtOk rcOk
          wt2Ok).trace.count .createWtEv ≤ 2 ∧
      ((bare0 || cbOk) = true → wt0 = false → wt1Ok = false →
        (execute_create_command bare0 wt0 cbOk wt1Ok wtAfterFail rmBareOk rmWtOk rcOk
            wt2Ok).trace.count .removeBareEv = 1) ∧
      ((bare0 || cbOk) = true → wt0 = false → wt1Ok = false → rmBareOk = true →
        (!wtAfterFail || rmWtOk) = true → rcOk = true → wt2Ok = false →
        (execute_create_command bare0 wt0 cbOk wt1Ok wtAfterFail rmBareOk rmWtOk rcOk
            wt2Ok).res = .error .retryWtFailed ∧
        (execute_create_command bare0 wt0 cbOk wt1Ok wtAfterFail rmBareOk rmWtOk rcOk
            wt2Ok).trace.count .createWtEv = 2)) ∧
    (∀ bare0 wt0 cloneOk wtOk : Bool,
      (execute_get_command bare0 wt0 cloneOk wtOk).trace.count .removeBareEv = 0 ∧
      ((bare0 || cloneOk) = true → wt0 = false → wtOk = false →
        (execute_get_command bare0 wt0 cloneOk wtOk).res = .error .wtFailed)) := by
  constructor
  · decide
  · decide

/-- C2 witness: with a pre-existing bare repository, both creation attempts
failing, and the recovery steps succeeding, the create command performs one
removal cycle, two worktree attempts, and fails fatally. -/
theorem C2_witness :
    (execute_create_command true false true false false true true true false).res =
      .error .retryWtFailed ∧
    (execute_create_command true false true false false true true true
        false).trace.count .createWtEv = 2 ∧
    (execute_create_command true false true false false true true true
        false).trace.count .removeBareEv = 1 := by
  have h := C2_one_recovery_cycle.1 true false true false false true true true false
  exact ⟨(h.2.2.2 rfl rfl rfl rfl rfl rfl rfl).1,
    (h.2.2.2 rfl rfl rfl rfl rfl rfl rfl).2, h.2.2.1 rfl rfl rfl⟩

/-- C3: "ensure bare repository then ensure worktree" is idempotent: when a
run of the create (resp. get) command succeeds it leaves both the bare path
and the worktree path present, and a second run on that state succeeds,
performs no operation at all (empty trace — in particular no creation), and
leaves the on-disk state exactly as the first run left it. -/
theorem C3_idempotent :
    (∀ bare0 wt0 cbOk wt1Ok wtAfterFail rmBareOk rmWtOk rcOk wt2Ok : Bool,
      (execute_create_command bare0 wt0 cbOk wt1Ok wtAfterFail rmBareOk rmWtOk rcOk
          wt2Ok).res = .ok () →
      (execute_create_command bare0 wt0 cbOk wt1Ok wtAfterFail rmBareOk rmWtOk rcOk
          wt2Ok).bareEnd = true ∧
      (execute_create_command bare0 wt0 cbOk wt1Ok wtAfterFail rmBareOk rmWtOk rcOk
          wt2Ok).wtEnd = true ∧
      execute_create_command
        (execute_create_command bare0 wt0 cbOk wt1Ok wtAfterFail rmBareOk rmWtOk rcOk
          wt2Ok).bareEnd
        (execute_create_command bare0 wt0 cbOk wt1Ok wtAfterFail rmBareOk rmWtOk rcOk
          wt2Ok).wtEnd cbOk wt1Ok wtAfterFail rmBareOk rmWtOk rcOk wt2Ok =
        ⟨.ok (), [], true, true⟩) ∧
    (∀ bare0 wt0 cloneOk wtOk : Bool,
      (execute_get_command bare0 wt0 cloneOk wtOk).res = .ok () →
      (execute_get_command bare0 wt0 cloneOk wtOk).bareEnd = true ∧
      (execute_get_command bare0 wt0 cloneOk wtOk).wtEnd = true ∧
      execute_get_command (execute_get_command bare0 wt0 cloneOk wtOk).bareEnd
        (execute_get_command bare0 wt0 cloneOk wtOk).wtEnd cloneOk wtOk =
        ⟨.ok (), [], true, true⟩) := by
  constructor
  · decide
  · decide

/-- C3 witness: a fresh get run succeeds and the repeated run is a no-op. -/
theorem C3_witness :
    (execute_get_command false false true true).bareEnd = true ∧
    (execute_get_command false false true true).wtEnd = true ∧
    execute_get_command (execute_get_command false false true true).bareEnd
      (execute_get_command false false true true).wtEnd true true =
      ⟨.ok (), [], true, true⟩ :=
  C3_idempotent.2 false false true true rfl

/-- A root tree whose host-level entry is a directory named ".git". -/
def c4badTree : Entries :=
  [(dotGit, .dir [("owner".toList, .dir [("repo".toList, .dir [(mainName, .dir [])])])])]

/-- C4 counterexample: the claim says entries named ".git" are excluded at
every tree level, but only the worktree (leaf) level filters them: a
directory named ".git" at the host level is traversed like any other host,
and the worktrees below it are emitted — the emitted path contains a ".git"
component. -/
theorem C4_counterexample :
    list_worktrees (some (.dir c4badTree)) =
      .ok [[dotGit, "owner".toList, "repo".toList, mainName]] ∧
    dotGit ∈ [dotGit, "owner".toList, "repo".toList, mainName] := by decide

/-- C4 (amended): on a well-formed root tree the worktree listing emits
exactly the depth-four paths that descend through directories at the host,
owner and repository levels and end in a directory entry that is not named
".git"; non-directory entries are skipped at every level, and ".git" is
excluded at the worktree (leaf) level only — a directory named ".git" at a
higher level is traversed like any other directory. -/
theorem C4_listing_excludes_git (es : Entries) (hwf : wfRootEntries es = true) :
    list_worktrees (some (.dir es)) = .ok (pureRoot es) ∧
    ∀ q, q ∈ pureRoot es ↔
      ∃ h ht, (h, ht) ∈ es ∧ isDirB ht = true ∧
      ∃ o ot, (o, ot) ∈ entriesOf ht ∧ isDirB ot = true ∧
      ∃ r rt, (r, rt) ∈ entriesOf ot ∧ isDirB rt = true ∧
      ∃ w wt, (w, wt) ∈ entriesOf rt ∧ isDirB wt = true ∧ w ≠ dotGit ∧
      q = [h, o, r, w] := by
  refine ⟨list_worktrees_eq es hwf, ?_⟩
  intro q
  rw [mem_pureRoot]
  constructor
  · rintro ⟨⟨h, ht⟩, hmem, hd, hq⟩
    rw [mem_pureHost] at hq
    obtain ⟨⟨o, ot⟩, hmem2, hd2, hq2⟩ := hq
    rw [mem_pureUser] at hq2
    obtain ⟨⟨r, rt⟩, hmem3, hd3, hq3⟩ := hq2
    rw [mem_pureRepo] at hq3
    obtain ⟨⟨w, wt⟩, hmem4, hd4, hg4, hq4⟩ := hq3
    exact ⟨h, ht, hmem, hd, o, ot, hmem2, hd2, r, rt, hmem3, hd3, w, wt, hmem4, hd4,
      hg4, by simpa using hq4⟩
  · rintro ⟨h, ht, hmem, hd, o, ot, hmem2, hd2, r, rt, hmem3, hd3, w, wt, hmem4, hd4,
      hg4, hq⟩
    refine ⟨(h, ht), hmem, hd, ?_⟩
    rw [mem_pureHost]
    refine ⟨(o, ot), hmem2, hd2, ?_⟩
    rw [mem_pureUser]
    refine ⟨(r, rt), hmem3, hd3, ?_⟩
    rw [mem_pureRepo]
    exact ⟨(w, wt), hmem4, hd4, hg4, by simpa using hq⟩

/-- A well-formed demonstration tree with a ".git" entry at the leaf level. -/
def c4demoTree : Entries :=
  [("github.com".toList, .dir [("user".toList, .dir [("repo".toList,
    .dir [(dotGit, .dir []), (mainName, .dir [])])])])]

/-- C4 witness: on the demonstration tree the listing agrees with the
declarative description, which keeps "main" and drops the leaf ".git". -/
theorem C4_witness :
    list_worktrees (some (.dir c4demoTree)) = .ok (pureRoot c4demoTree) ∧
    pureRoot c4demoTree =
      [["github.com".toList, "user".toList, "repo".toList, mainName]] :=
  ⟨(C4_listing_excludes_git c4demoTree (by decide)).1, by decide⟩

/-- C5: `find_default_worktree` returns the `main` entry whenever a `main`
directory exists (whether or not `master` does); returns `master` when no
`main` directory exists but a `master` directory does; and fails with the
worktree-not-found error when the only entry is named ".git", or more
generally when no entry is a directory with a name other than ".git". -/
theorem C5_find_default_worktree (pre : List Str) (es : Entries) :
    (∀ t, (es.map Prod.fst).Nodup → (mainName, t) ∈ es → isDirB t = true →
      find_default_worktree pre es = .ok (pre ++ [mainName])) ∧
    ((∀ t, (mainName, t) ∈ es → isDirB t = false) → ∀ t,
      (es.map Prod.fst).Nodup → (masterName, t) ∈ es → isDirB t = true →
      find_default_worktree pre es = .ok (pre ++ [masterName])) ∧
    (∀ t, es = [(dotGit, t)] →
      find_default_worktree pre es = .error .worktreeNotFound) ∧
    ((∀ e ∈ es, isDirB e.2 = false ∨ e.1 = dotGit) →
      find_default_worktree pre es = .error .worktreeNotFound) := by
  refine ⟨?_, ?_, ?_, ?_⟩
  · intro t hnd hm hd
    rw [find_default_worktree, if_pos (existsDir_of_mem es mainName t hnd hm hd)]
  · intro hno t hnd hm hd
    have hmain : existsDir es mainName = false := by
      cases hmb : existsDir es mainName with
      | false => rfl
      | true =>
        obtain ⟨t2, hm2, hd2⟩ := mem_of_existsDir es mainName hmb
        rw [hno t2 hm2] at hd2
        cases hd2
    rw [find_default_worktree, hmain]
    simp only [Bool.false_eq_true, if_false]
    rw [if_pos (existsDir_of_mem es masterName t hnd hm hd)]
  · intro t hes
    subst hes
    cases t with
    | file => rfl
    | dir ces =>
      have h1 : existsDir [(dotGit, FsTree.dir ces)] mainName = false := rfl
      have h2 : existsDir [(dotGit, FsTree.dir ces)] masterName = false := rfl
      rw [find_default_worktree, h1, h2]
      simp only [Bool.false_eq_true, if_false]
      rw [firstWorktree, fileName_concat pre dotGit (by decide)]
      simp [firstWorktree]
  · intro hq
    have hmain : existsDir es mainName = false := by
      cases hmb : existsDir es mainName with
      | false => rfl
      | true =>
        obtain ⟨t2, hm2, hd2⟩ := mem_of_existsDir es mainName hmb
        rcases hq (mainName, t2) hm2 with hd | hg
        · rw [hd] at hd2
          cases hd2
        · exact absurd (show mainName = dotGit from hg) (by decide)
    have hmaster : existsDir es masterName = false := by
      cases hmb : existsDir es masterName with
      | false => rfl
      | true =>
        obtain ⟨t2, hm2, hd2⟩ := mem_of_existsDir es masterName hmb
        rcases hq (masterName, t2) hm2 with hd | hg
        · rw [hd] at hd2
          cases hd2
        · exact absurd (show masterName = dotGit from hg) (by decide)
    rw [find_default_worktree, hmain, hmaster]
    simp only [Bool.false_eq_true, if_false]
    exact firstWorktree_err_of_unqualified pre es hq

/-- A repository with `master` listed before `main`. -/
def c5demo : Entries := [(masterName, .dir []), (mainName, .dir [])]

/-- C5 witness: even listed after `master`, the `main` directory wins. -/
theorem C5_witness : find_default_worktree [] c5demo = .ok [mainName] :=
  (C5_find_default_worktree [] c5demo).1 (.dir []) (by decide)
    (List.mem_cons_of_mem _ (List.mem_cons_self _ _)) rfl

/-- C10: on directory entries as `read_dir` produces them (non-empty normal
names), the `file_name().unwrap()` calls of `list_repo_worktrees` (both
copies) and of the fallback loop of `find_default_worktree` never panic: the
paths built by joining the directory path with an entry name always have a
final component, so the ".git" comparison is total and the functions never
return the panic outcome. -/
theorem C10_file_name_total (pre : List Str) (es : Entries)
    (h : wfRepoEntries es = true) :
    (∃ l, list_repo_worktrees pre es = .ok l) ∧
    firstWorktree pre es ≠ .error .panicked ∧
    find_default_worktree pre es ≠ .error .panicked :=
  ⟨⟨pureRepo pre es, list_repo_worktrees_eq pre es h⟩,
    firstWorktree_no_panic pre es h, find_default_worktree_no_panic pre es h⟩

/-- C10 witness: a concrete repository directory with a ".git" entry. -/
theorem C10_witness :
    (∃ l, list_repo_worktrees [] [(mainName, FsTree.dir []), (dotGit, FsTree.dir [])] =
      .ok l) ∧
    firstWorktree [] [(mainName, FsTree.dir []), (dotGit, FsTree.dir [])] ≠
      .error .panicked ∧
    find_default_worktree [] [(mainName, FsTree.dir []), (dotGit, FsTree.dir [])] ≠
      .error .panicked :=
  C10_file_name_total [] [(mainName, FsTree.dir []), (dotGit, FsTree.dir [])] (by decide)

end Neoghq
